import Mathlib

/-!
# Verification of `boost::math::quadrature::naive_monte_carlo`

A shallow embedding of the single-header parallel naive Monte Carlo
integrator (`include/boost/math/quadrature/naive_monte_carlo.hpp`) and
proofs of the spec claims about it.

Modelling conventions:

* `Real` (a template parameter, in practice a machine float) is modelled
  as `ℚ`, an exact ordered field.  Machine-float constants that the code
  pulls from `std::numeric_limits` — `epsilon()`, `sqrt(min())` — become
  explicit parameters `eps`, `sqrtMin` of the embedded functions.
* `std::nextafter` steps are external library behaviour; they are
  modelled as abstract functions `nextUp` (toward `max()`) and
  `nextDown` (toward `lowest()`) bundled with the float constants in a
  `FloatOps` record.
* The quiet-NaN placeholder the constructor stores into `m_dxs[i]` on
  semi-infinite axes (a value the code never reads back) is modelled as
  `Option.none`; a real width `w` is `some w`.
* Non-finite integrand results (NaN, ±∞) are modelled by the inductive
  `FVal`; finite results carry a `ℚ`.
* `size_t` counters (`k`, call counts) are modelled as `ℕ`; the seed,
  whose squaring in `cancel()` genuinely wraps, is modelled as `ℕ`
  reduced `% 2^64` at the wrapping multiplication.
* Concurrency is sequentialized: each worker is a fold over the list of
  integrand values it consumes, and the controller reads the published
  per-thread slots.
-/

namespace NaiveMonteCarlo

/-- The enum detail::limit_classification (header lines 26–29). -/
inductive limit_classification
  | FINITE
  | LOWER_BOUND_INFINITE
  | UPPER_BOUND_INFINITE
  | DOUBLE_INFINITE
deriving DecidableEq, Repr

/-- An extended real used only for the user-supplied bounds, which may be
`±∞` (the code compares against `numeric_limits::infinity()`). -/
inductive XReal
  | negInf
  | fin (q : ℚ)
  | posInf
deriving DecidableEq, Repr

/-- Comparison of bounds, as IEEE ordering restricted to non-NaN values. -/
def XReal.leb : XReal → XReal → Bool
  | .negInf, _ => true
  | _, .posInf => true
  | .fin a, .fin b => decide (a ≤ b)
  | _, _ => false

/-- The finite payload of a bound; never used on infinite bounds. -/
def XReal.toQ : XReal → ℚ
  | .fin q => q
  | _ => 0

/-- Per-axis data produced by the constructor loop: the classification,
the stored lower reference `m_lbs[i]` and the stored width `m_dxs[i]`
(`none` models the quiet-NaN placeholder written on semi-infinite axes). -/
structure AxisData where
  limit_type : limit_classification
  lb : ℚ
  dx : Option ℚ
deriving DecidableEq, Repr

/-- The machine-float constants and `std::nextafter` steps the
constructor consumes, abstracted. -/
structure FloatOps where
  eps : ℚ
  sqrtMin : ℚ
  nextUp : ℚ → ℚ
  nextDown : ℚ → ℚ

/-- One iteration of the constructor bounds loop (header lines 51–109):
classify the axis, compute `m_lbs[i]` and `m_dxs[i]`.  A bound pair with
`upper ≤ lower` raises a domain error (`raise_domain_error`, line 55),
modelled as `Except.error`.  On a `DOUBLE_INFINITE` axis neither slot is
written, so both keep their `resize` defaults (`Real() = 0`). -/
def processAxis (fo : FloatOps) (singular : Bool) (b : XReal × XReal) :
    Except Unit AxisData :=
  if XReal.leb b.2 b.1 then
    .error ()
  else if b.1 = XReal.negInf then
    if b.2 = XReal.posInf then
      .ok ⟨.DOUBLE_INFINITE, 0, some 0⟩
    else
      .ok ⟨.LOWER_BOUND_INFINITE, b.2.toQ, none⟩
  else if b.2 = XReal.posInf then
    if singular then
      .ok ⟨.UPPER_BOUND_INFINITE, fo.nextUp b.1.toQ, none⟩
    else
      .ok ⟨.UPPER_BOUND_INFINITE, b.1.toQ, none⟩
  else
    if singular then
      let lb := if b.1.toQ = 0 then fo.eps else fo.nextUp b.1.toQ
      .ok ⟨.FINITE, lb, some (fo.nextDown b.2.toQ - lb)⟩
    else
      .ok ⟨.FINITE, b.1.toQ, some (b.2.toQ - b.1.toQ)⟩

/-- The whole constructor bounds loop: process each axis in order,
propagating the first domain error. -/
def processBounds (fo : FloatOps) (singular : Bool)
    (bounds : List (XReal × XReal)) : Except Unit (List AxisData) :=
  bounds.mapM (processAxis fo singular)

/-- The volume accumulator `m_volume`: starts at 1 and accumulates `m_volume *= m_dxs[i]`
inside the `FINITE` branch only (header lines 49, 108). -/
def volumeOf (axes : List AxisData) : ℚ :=
  axes.foldl
    (fun v a =>
      match a.limit_type with
      | .FINITE => v * a.dx.getD 0
      | _ => v) 1

/-- One axis of the wrapped-integrand transform (header lines 120–144):
given the uniform coordinate `u ∈ [0,1]`, return the Jacobian factor
multiplied into `coeff` and the mapped coordinate written back into
`x[i]`.  The `FINITE` branch leaves `coeff` unchanged, i.e. its factor
is `1`. -/
def transformAxis (eps sqrtMin : ℚ) (a : AxisData) (u : ℚ) : ℚ × ℚ :=
  match a.limit_type with
  | .FINITE => (1, a.lb + u * a.dx.getD 0)
  | .UPPER_BOUND_INFINITE =>
      let t := u
      let z := 1 / (1 + eps - t)
      ((z * z) * (1 + eps), a.lb + t * z)
  | .LOWER_BOUND_INFINITE =>
      let t := u
      let z := 1 / (t + sqrtMin)
      (z * z, a.lb + (t - 1) * z)
  | .DOUBLE_INFINITE =>
      let t1 := 1 / (1 + eps - u)
      let t2 := 1 / (u + eps)
      ((t1 * t1 + t2 * t2) / 4, (2 * u - 1) * t1 * t2 / 4)

/-- The loop body of `m_integrand` (header lines 114–145): walk the
axes, multiplying each Jacobian factor into the running `coeff` (seeded
with `m_volume`) and rewriting each coordinate in place. -/
def transformLoop (eps sqrtMin : ℚ) :
    List (AxisData × ℚ) → ℚ → ℚ × List ℚ
  | [], coeff => (coeff, [])
  | (a, u) :: rest, coeff =>
      let ju := transformAxis eps sqrtMin a u
      let tail := transformLoop eps sqrtMin rest (coeff * ju.1)
      (tail.1, ju.2 :: tail.2)

/-- The wrapped integrand `m_integrand` (header lines 112–147): transform the sample, then
return `coeff * integrand(x)`. -/
def m_integrand (eps sqrtMin : ℚ) (axes : List AxisData) (volume : ℚ)
    (integrand : List ℚ → ℚ) (u : List ℚ) : ℚ :=
  let cx := transformLoop eps sqrtMin (axes.zip u) volume
  cx.1 * integrand cx.2

/-! ## Accumulator, per-thread slots, shared state -/

/-- One worker's published accumulator slot: `m_thread_averages[i]`,
`m_thread_Ss[i]`, `m_thread_calls[i]` (header lines 405–409). -/
structure Slot where
  average : ℚ
  S : ℚ
  calls : ℕ
deriving DecidableEq, Repr

/-- The worker's local accumulator variables (header lines 335–342):
`M1`, `S`, the Kahan `compensator`, and the call count `k`. -/
structure WorkerAcc where
  M1 : ℚ
  S : ℚ
  compensator : ℚ
  k : ℕ
deriving DecidableEq, Repr

/-- One accumulator update for a new sample value `f` (header lines
372–378): Welford mean / sum-of-squared-deviations with Kahan
compensation on the mean. -/
def accumStep (st : WorkerAcc) (f : ℚ) : WorkerAcc :=
  let k := st.k + 1
  let term := (f - st.M1) / (k : ℚ)
  let y1 := term - st.compensator
  let M2 := st.M1 + y1
  { M1 := M2
    S := st.S + (f - st.M1) * (f - M2)
    compensator := (M2 - st.M1) - y1
    k := k }

/-- Worker start-up (header lines 335–342): reload `M1`, `S`, `k` from
this worker's published slot; the compensator restarts at `0`. -/
def workerInit (s : Slot) : WorkerAcc :=
  ⟨s.average, s.S, 0, s.calls⟩

/-- Publication of the local accumulator into the slot (header lines
380–382). -/
def publish (st : WorkerAcc) : Slot :=
  ⟨st.M1, st.S, st.k⟩

/-- A worker's arithmetic over the integrand values it consumes before
`m_done` stops it: reload from the slot, fold the accumulator update,
publish. -/
def workerRun (s : Slot) (fs : List ℚ) : Slot :=
  publish (fs.foldl accumStep (workerInit s))

/-- The constructor priming loop (header lines 165–176): each thread
slot starts with `average = y`, one call, `S = 0`, where `y` is the one
integrand evaluation made for that thread. -/
def primeSlot (y : ℚ) : Slot :=
  ⟨y, 0, 1⟩

/-! ## Controller aggregation -/

/-- The `total_calls` accumulation in the poll / final loops (header lines
274–278, 306–310). -/
def pollTotal (slots : List Slot) : ℕ :=
  slots.foldl (fun acc s => acc + s.calls) 0

/-- The `avg` accumulation (header lines 281–287, 313–319): each slot
contributes `m_thread_averages[i] * ((Real) t_calls / (Real) total_calls)`. -/
def pollAvg (slots : List Slot) (total : ℕ) : ℚ :=
  slots.foldl (fun acc s => acc + s.average * ((s.calls : ℚ) / (total : ℚ))) 0

/-- The `variance` accumulation before the final division: the plain sum of
per-thread `S` (header lines 286, 318). -/
def pollS (slots : List Slot) : ℚ :=
  slots.foldl (fun acc s => acc + s.S) 0

/-- One aggregation pass (identical in the poll loop, lines 272–296, and
the final aggregation, lines 305–322): `(m_avg, m_variance,
m_total_calls)`.  The divisor `total_calls - 1` is the `size_t`
difference the code converts to `Real`. -/
def pollAggregate (slots : List Slot) : ℚ × ℚ × ℕ :=
  let total := pollTotal slots
  (pollAvg slots total, pollS slots / ((total - 1 : ℕ) : ℚ), total)

/-- The observable `current_error_estimate` (header lines 208–212); `sq` abstracts
`std::sqrt`. -/
def current_error_estimate (sq : ℚ → ℚ) (variance : ℚ) (total_calls : ℕ) : ℚ :=
  sq (variance / (total_calls : ℚ))

/-- The observable `progress` (header lines 230–238), as a function of the stored error
goal and the current error estimate. -/
def progress (errorGoal estimate : ℚ) : ℚ :=
  let r := errorGoal / estimate
  if 1 ≤ r * r then 1 else r * r

/-! ## Shared object state, cancel / restart / update_target_error -/

/-- Non-finite integrand results: the code checks `!isfinite(f)`. -/
inductive FVal
  | fin (q : ℚ)
  | posInf
  | negInf
  | nan
deriving DecidableEq, Repr

/-- The `std::isfinite` test. -/
def FVal.isfinite : FVal → Bool
  | .fin _ => true
  | _ => false

/-- The finite payload; only read after the `isfinite` check passes. -/
def FVal.toQ : FVal → ℚ
  | .fin q => q
  | _ => 0

/-- The domain error raised on a non-finite integrand result (header
lines 359–370): the message carries the transformed evaluation point
and the returned value. -/
structure MCDomainError where
  point : List ℚ
  value : FVal
deriving DecidableEq, Repr

/-- The object state the claims observe: the stored seed, done flag,
error goal, published aggregates, per-thread slots, thread count, and
the stored exception slot. -/
structure MCState where
  m_seed : ℕ
  m_done : Bool
  m_error_goal : ℚ
  m_avg : ℚ
  m_variance : ℚ
  m_total_calls : ℕ
  m_num_threads : ℕ
  slots : List Slot
  m_exception : Option MCDomainError
deriving DecidableEq, Repr

/-- Word modulus: `size_t` wraps modulo `2^64`. -/
def UINT64_MOD : ℕ := 2 ^ 64

/-- The `cancel` operation (header lines 195–201): square the stored seed (a `size_t`
multiplication, hence modulo `2^64`) and set `m_done`. -/
def cancel (s : MCState) : MCState :=
  { s with m_seed := s.m_seed * s.m_seed % UINT64_MOD, m_done := true }

/-- The `integrate` entry point (header lines 187–193) before launching `m_integrate`:
the only state change is clearing the done flag. -/
def integrateStart (s : MCState) : MCState :=
  { s with m_done := false }

/-- The master-seed choice at the top of `m_integrate` (header lines
256–266): the stored seed if nonzero, else a nondeterministic draw
(passed in as `entropy`). -/
def chooseSeed (m_seed entropy : ℕ) : ℕ :=
  if m_seed = 0 then entropy else m_seed

/-- The `update_target_error` operation (header lines 225–228): an unconditional
store. -/
def update_target_error (s : MCState) (new_target_error : ℚ) : MCState :=
  { s with m_error_goal := new_target_error }

/-! ## Worker error path and controller result -/

/-- One sample inside the worker batch loop (header lines 357–378):
`f = m_integrand(x)` with `x` already transformed; a non-finite `f`
raises the domain error carrying `x` and `f`, otherwise the accumulator
is updated. -/
def workerStepE (acc : WorkerAcc) (x : List ℚ) (f : FVal) :
    Except MCDomainError WorkerAcc :=
  if f.isfinite then .ok (accumStep acc f.toQ) else .error ⟨x, f⟩

/-- The worker sample loop, over the (transformed point, integrand
value) pairs it consumes. -/
def workerLoopE (acc : WorkerAcc) :
    List (List ℚ × FVal) → Except MCDomainError WorkerAcc
  | [] => .ok acc
  | (x, f) :: rest =>
      match workerStepE acc x f with
      | .ok acc2 => workerLoopE acc2 rest
      | .error e => .error e

/-- The worker body `m_thread_monte` with its `try`/`catch` (header lines 327–391):
normal exit publishes the accumulator and leaves `done` and the
exception slot alone; an escaping exception sets `done`, stores the
exception, and leaves the slot at its last published value. -/
def m_thread_monteE (doneIn : Bool) (s : Slot)
    (samples : List (List ℚ × FVal)) : Slot × Bool × Option MCDomainError :=
  match workerLoopE (workerInit s) samples with
  | .ok acc => (publish acc, doneIn, none)
  | .error e => (s, true, some e)

/-- The tail of `m_integrate` after joining the workers (header lines
301–304, 324): re-raise a stored exception, else resolve with the final
aggregate mean. -/
def m_integrate_finish (exc : Option MCDomainError) (avg : ℚ) :
    Except MCDomainError ℚ :=
  match exc with
  | some e => .error e
  | none => .ok avg

/-- The sample-scaling step (header lines 334, 353–356): a raw generator
draw `g ∈ [gmin, gmax]` becomes `(g - gmin) * inv_denom` with
`inv_denom = 1 / (gmax - gmin)`. -/
def scaleSample (gmin gmax g : ℕ) : ℚ :=
  ((g : ℚ) - (gmin : ℚ)) * (1 / ((gmax : ℚ) - (gmin : ℚ)))

/-- The divisor expressions of `transformAxis`, per axis class: the
transform divides by `1 + eps - u` (upper-infinite, and doubly-infinite
first factor), `u + sqrtMin` (lower-infinite) and `u + eps`
(doubly-infinite second factor). -/
def transformDenominators (eps sqrtMin : ℚ) :
    limit_classification → ℚ → List ℚ
  | .FINITE, _ => []
  | .UPPER_BOUND_INFINITE, u => [1 + eps - u]
  | .LOWER_BOUND_INFINITE, u => [u + sqrtMin]
  | .DOUBLE_INFINITE, u => [1 + eps - u, u + eps]

/-- The do-while guard of the poll loop (header line 296): keep running
while `current_error_estimate() > m_error_goal`, reading the currently
stored goal. -/
def pollContinues (sq : ℚ → ℚ) (s : MCState) : Bool :=
  decide (s.m_error_goal <
    current_error_estimate sq s.m_variance s.m_total_calls)

/-! ## Spec-side definitions

Written from the words of the spec / claims, to be compared with the
embedded code by refinement theorems. -/

/-- Spec-side Jacobian factor of one axis, exactly as the spec table
states it. -/
def specJacobian (eps sqrtMin : ℚ) (a : AxisData) (u : ℚ) : ℚ :=
  match a.limit_type with
  | .FINITE => 1
  | .UPPER_BOUND_INFINITE => (1 + eps) * (1 / (1 + eps - u)) ^ 2
  | .LOWER_BOUND_INFINITE => (1 / (u + sqrtMin)) ^ 2
  | .DOUBLE_INFINITE =>
      ((1 / (1 + eps - u)) ^ 2 + (1 / (u + eps)) ^ 2) / 4

/-- Spec-side coordinate map of one axis, exactly as the spec table
states it. -/
def specMap (eps sqrtMin : ℚ) (a : AxisData) (u : ℚ) : ℚ :=
  match a.limit_type with
  | .FINITE => a.lb + u * a.dx.getD 0
  | .UPPER_BOUND_INFINITE => a.lb + u * (1 / (1 + eps - u))
  | .LOWER_BOUND_INFINITE => a.lb + (u - 1) * (1 / (u + sqrtMin))
  | .DOUBLE_INFINITE =>
      (2 * u - 1) * (1 / (1 + eps - u)) * (1 / (u + eps)) / 4

/-- Spec-side volume: the product of the stored widths over the Finite
axes only. -/
def specVolume (axes : List AxisData) : ℚ :=
  ((axes.filter fun a =>
      a.limit_type == limit_classification.FINITE).map
    fun a => a.dx.getD 0).prod

/-- A model of the IEEE double-precision limits consumed through
`FloatOps`: machine epsilon `2^-52`, `sqrt` of the smallest positive
normal (`2^-1022`) is `2^-511`, and one representable step is `2^-1074`.
The constant step makes `nextUp`/`nextDown` exact only on the subnormal
range `[-2^-1022, 2^-1022]`; the proofs below evaluate them only at `0`,
where `nextafter(0, max)` is the smallest positive subnormal `2^-1074`. -/
def ieeeDoubleOps : FloatOps :=
  { eps := 1 / 2 ^ 52
    sqrtMin := 1 / 2 ^ 511
    nextUp := fun q => q + 1 / 2 ^ 1074
    nextDown := fun q => q - 1 / 2 ^ 1074 }

/-- An arbitrary concrete `FloatOps` instance used to evaluate
parametric theorems on closed inputs. -/
def toyOps : FloatOps :=
  { eps := 1 / 2 ^ 10
    sqrtMin := 1 / 2 ^ 5
    nextUp := fun q => q + 1 / 2 ^ 20
    nextDown := fun q => q - 1 / 2 ^ 20 }

/-! ## Helper lemmas -/

/-- The first component of `transformAxis` is the spec-side Jacobian
factor. -/
theorem transformAxis_fst (eps sqrtMin : ℚ) (a : AxisData) (u : ℚ) :
    (transformAxis eps sqrtMin a u).1 = specJacobian eps sqrtMin a u := by
  rcases a with ⟨lt, lb, dx⟩
  cases lt <;> simp only [transformAxis, specJacobian, pow_two] <;>
    first
      | rfl
      | rw [mul_comm]

/-- The second component of `transformAxis` is the spec-side coordinate
map. -/
theorem transformAxis_snd (eps sqrtMin : ℚ) (a : AxisData) (u : ℚ) :
    (transformAxis eps sqrtMin a u).2 = specMap eps sqrtMin a u := by
  rcases a with ⟨lt, lb, dx⟩
  cases lt <;> rfl

/-- The transform loop accumulates exactly the product of the spec-side
Jacobian factors and maps each coordinate by the spec-side map. -/
theorem transformLoop_eq_spec (eps sqrtMin : ℚ) :
    ∀ (l : List (AxisData × ℚ)) (c : ℚ),
      transformLoop eps sqrtMin l c =
        (c * (l.map fun p => specJacobian eps sqrtMin p.1 p.2).prod,
         l.map fun p => specMap eps sqrtMin p.1 p.2)
  | [], c => by simp [transformLoop]
  | (a, u) :: rest, c => by
      simp only [transformLoop, transformLoop_eq_spec eps sqrtMin rest,
        transformAxis_fst, transformAxis_snd, List.map_cons, List.prod_cons,
        Prod.mk.injEq]
      exact ⟨by ring, trivial⟩

/-- Unfolding `specVolume` over a Finite head axis. -/
theorem specVolume_cons_finite (a : AxisData) (tl : List AxisData)
    (h : a.limit_type = limit_classification.FINITE) :
    specVolume (a :: tl) = a.dx.getD 0 * specVolume tl := by
  simp [specVolume, List.filter_cons, h]

/-- Unfolding `specVolume` over a non-Finite head axis. -/
theorem specVolume_cons_other (a : AxisData) (tl : List AxisData)
    (h : ¬ a.limit_type = limit_classification.FINITE) :
    specVolume (a :: tl) = specVolume tl := by
  simp [specVolume, List.filter_cons, h]

/-- The volume fold equals the spec-side finite-axes product. -/
theorem volumeOf_eq_spec (axes : List AxisData) :
    volumeOf axes = specVolume axes := by
  suffices h : ∀ v : ℚ,
      axes.foldl
        (fun v a =>
          match a.limit_type with
          | .FINITE => v * a.dx.getD 0
          | _ => v) v = v * specVolume axes by
    simpa [volumeOf] using h 1
  induction axes with
  | nil => intro v; simp [specVolume]
  | cons a tl ih =>
      intro v
      cases h : a.limit_type
      case FINITE =>
        rw [List.foldl_cons, specVolume_cons_finite a tl h]
        simp only [h]
        rw [ih, mul_assoc]
      case LOWER_BOUND_INFINITE =>
        rw [List.foldl_cons, specVolume_cons_other a tl (by simp [h])]
        simp only [h]
        exact ih v
      case UPPER_BOUND_INFINITE =>
        rw [List.foldl_cons, specVolume_cons_other a tl (by simp [h])]
        simp only [h]
        exact ih v
      case DOUBLE_INFINITE =>
        rw [List.foldl_cons, specVolume_cons_other a tl (by simp [h])]
        simp only [h]
        exact ih v

/-- A left fold that adds `g` of each element is the starting value plus
the sum of the mapped list. -/
theorem foldl_add_sum {α : Type} (g : α → ℚ) :
    ∀ (l : List α) (a : ℚ),
      l.foldl (fun acc s => acc + g s) a = a + (l.map g).sum
  | [], a => by simp
  | x :: l, a => by
      simp [foldl_add_sum g l, add_assoc]

/-- Natural-number version of `foldl_add_sum`. -/
theorem foldl_add_sum_nat {α : Type} (g : α → ℕ) :
    ∀ (l : List α) (a : ℕ),
      l.foldl (fun acc s => acc + g s) a = a + (l.map g).sum
  | [], a => by simp
  | x :: l, a => by
      simp [foldl_add_sum_nat g l, add_assoc]

/-- The poll loop's `total_calls` is the sum of the per-thread call
counts. -/
theorem pollTotal_eq (slots : List Slot) :
    pollTotal slots = (slots.map Slot.calls).sum := by
  simpa [pollTotal] using foldl_add_sum_nat Slot.calls slots 0

/-- The poll loop's `avg` is the sum of the weighted per-thread means. -/
theorem pollAvg_eq (slots : List Slot) (total : ℕ) :
    pollAvg slots total
      = (slots.map fun s =>
          s.average * ((s.calls : ℚ) / (total : ℚ))).sum := by
  simpa [pollAvg] using
    foldl_add_sum (fun s : Slot => s.average * ((s.calls : ℚ) / (total : ℚ)))
      slots 0

/-- The poll loop's pre-division `variance` is the sum of the per-thread
`S`. -/
theorem pollS_eq (slots : List Slot) :
    pollS slots = (slots.map Slot.S).sum := by
  simpa [pollS] using foldl_add_sum Slot.S slots 0

/-- In exact arithmetic the Kahan compensator computed by `accumStep` is
always zero. -/
theorem accumStep_compensator (st : WorkerAcc) (f : ℚ) :
    (accumStep st f).compensator = 0 := by
  simp only [accumStep]
  ring

/-- One accumulator step keeps `S` nonnegative: in exact arithmetic the
added term is `(f − M1)² · k/(k+1) ≥ 0`. -/
theorem accumStep_S_nonneg (st : WorkerAcc) (f : ℚ)
    (hc : st.compensator = 0) (hS : 0 ≤ st.S) :
    0 ≤ (accumStep st f).S := by
  have hne : ((st.k : ℚ) + 1) ≠ 0 := by positivity
  have key : (accumStep st f).S
      = st.S + (f - st.M1) ^ 2 * ((st.k : ℚ) / ((st.k : ℚ) + 1)) := by
    simp only [accumStep, hc, sub_zero]
    push_cast
    field_simp
    ring
  rw [key]
  have h2 : 0 ≤ (f - st.M1) ^ 2 * ((st.k : ℚ) / ((st.k : ℚ) + 1)) :=
    mul_nonneg (sq_nonneg _) (div_nonneg (Nat.cast_nonneg _) (by positivity))
  linarith

/-- Folding the accumulator over any sample list keeps `S` nonnegative,
starting from a zero compensator. -/
theorem foldl_accumStep_S_nonneg :
    ∀ (fs : List ℚ) (st : WorkerAcc),
      st.compensator = 0 → 0 ≤ st.S → 0 ≤ (fs.foldl accumStep st).S
  | [], _, _, hS => hS
  | f :: fs, st, hc, hS =>
      foldl_accumStep_S_nonneg fs (accumStep st f)
        (accumStep_compensator st f) (accumStep_S_nonneg st f hc hS)

/-- Folding the accumulator adds one call per consumed sample. -/
theorem foldl_accumStep_k :
    ∀ (fs : List ℚ) (st : WorkerAcc),
      (fs.foldl accumStep st).k = st.k + fs.length
  | [], st => by simp
  | f :: fs, st => by
      rw [List.foldl_cons, foldl_accumStep_k fs (accumStep st f)]
      simp only [accumStep, List.length_cons]
      omega

/-- A worker run adds one call per consumed sample to its slot. -/
theorem workerRun_calls (s : Slot) (fs : List ℚ) :
    (workerRun s fs).calls = s.calls + fs.length := by
  simp [workerRun, publish, workerInit, foldl_accumStep_k]

/-- A worker run keeps the published `S` nonnegative. -/
theorem workerRun_S_nonneg (s : Slot) (fs : List ℚ) (h : 0 ≤ s.S) :
    0 ≤ (workerRun s fs).S := by
  simpa [workerRun, publish] using
    foldl_accumStep_S_nonneg fs (workerInit s) rfl h

/-- Every slot produced by priming followed by a worker run has at least
one call and a nonnegative `S`. -/
theorem mem_zipWith_workerRun :
    ∀ (ys : List ℚ) (fss : List (List ℚ)) (s : Slot),
      s ∈ List.zipWith workerRun (ys.map primeSlot) fss →
        1 ≤ s.calls ∧ 0 ≤ s.S
  | [], _, s => by simp
  | y :: ys, [], s => by simp
  | y :: ys, fs :: fss, s => by
      intro hmem
      simp only [List.map_cons, List.zipWith_cons_cons, List.mem_cons] at hmem
      rcases hmem with rfl | hmem
      · refine ⟨?_, workerRun_S_nonneg _ _ (le_refl 0)⟩
        rw [workerRun_calls]
        simp [primeSlot]
      · exact mem_zipWith_workerRun ys fss s hmem

/-- A slot list in which every slot made at least one call has total
calls at least its length. -/
theorem length_le_sum_calls :
    ∀ (slots : List Slot), (∀ s ∈ slots, 1 ≤ s.calls) →
      slots.length ≤ (slots.map Slot.calls).sum
  | [], _ => by simp
  | s :: tl, h => by
      simp only [List.map_cons, List.sum_cons, List.length_cons]
      have h1 := h s (by simp)
      have h2 := length_le_sum_calls tl (fun x hx => h x (by simp [hx]))
      omega

/-- The summed per-thread `S` is nonnegative when every slot's `S` is. -/
theorem pollS_nonneg (slots : List Slot) (h : ∀ s ∈ slots, 0 ≤ s.S) :
    0 ≤ pollS slots := by
  rw [pollS_eq]
  apply List.sum_nonneg
  intro x hx
  rcases List.mem_map.mp hx with ⟨s, hs, rfl⟩
  exact h s hs

/-! ## Claim theorems -/

/-- Claim C1: for every dimension, axis classification and point `u`,
the wrapped integrand computes the per-sample value as volume times the
product over axes of the Jacobian factors times the user integrand at
the mapped point, with the per-axis maps and Jacobians of the spec table
(Finite: `lb + u·dx`, factor 1; UpperInfinite: `z = 1/(1+ε−u)`,
`lb + u·z`, factor `(1+ε)·z²`; LowerInfinite: `z = 1/(u+√min)`,
`lb + (u−1)·z`, factor `z²`; DoublyInfinite: `t₁ = 1/(1+ε−u)`,
`t₂ = 1/(u+ε)`, `(2u−1)·t₁·t₂/4`, factor `(t₁²+t₂²)/4`), and with
volume the product of `dx` over Finite axes only. -/
theorem C1_wrapped_integrand (eps sqrtMin : ℚ) (axes : List AxisData)
    (f : List ℚ → ℚ) (u : List ℚ) :
    m_integrand eps sqrtMin axes (volumeOf axes) f u
      = specVolume axes
          * ((axes.zip u).map fun p => specJacobian eps sqrtMin p.1 p.2).prod
          * f ((axes.zip u).map fun p => specMap eps sqrtMin p.1 p.2) := by
  simp only [m_integrand,
    transformLoop_eq_spec eps sqrtMin (axes.zip u) (volumeOf axes)]
  rw [volumeOf_eq_spec]

/-- Claim C2: for every new sample value `f` and accumulator state
`(k, M1, S, compensator)`, the update performs exactly the recurrence
`k ← k+1`, `term = (f−M1)/k`, `y = term − compensator`, `M2 = M1 + y`,
`compensator ← (M2−M1) − y`, `S ← S + (f−M1)·(f−M2)`, `M1 ← M2`. -/
theorem C2_accumulator_recurrence (st : WorkerAcc) (f : ℚ) :
    (accumStep st f).k = st.k + 1 ∧
    (accumStep st f).M1
        = st.M1 + ((f - st.M1) / ((st.k + 1 : ℕ) : ℚ) - st.compensator) ∧
    (accumStep st f).compensator
        = ((st.M1 + ((f - st.M1) / ((st.k + 1 : ℕ) : ℚ) - st.compensator))
              - st.M1)
            - ((f - st.M1) / ((st.k + 1 : ℕ) : ℚ) - st.compensator) ∧
    (accumStep st f).S
        = st.S + (f - st.M1)
            * (f - (st.M1
                + ((f - st.M1) / ((st.k + 1 : ℕ) : ℚ) - st.compensator))) :=
  ⟨rfl, rfl, rfl, rfl⟩

/-- Claim C3: at every aggregation pass the published mean is the
`k`-weighted mean `Σᵢ M1ᵢ·(kᵢ/Σk)`, the published variance is
`ΣᵢSᵢ/(Σk − 1)`, the published total is `Σk`, and
`current_error_estimate` returns `sqrt(variance/total_calls)`. -/
theorem C3_poll_aggregation (slots : List Slot) (sq : ℚ → ℚ) (v : ℚ)
    (n : ℕ) (htot : 1 ≤ pollTotal slots) :
    (pollAggregate slots).1
        = (slots.map fun s =>
            s.average
              * ((s.calls : ℚ) / (((slots.map Slot.calls).sum : ℕ) : ℚ))).sum ∧
    (pollAggregate slots).2.1
        = (slots.map Slot.S).sum
            / ((((slots.map Slot.calls).sum : ℕ) : ℚ) - 1) ∧
    (pollAggregate slots).2.2 = (slots.map Slot.calls).sum ∧
    current_error_estimate sq v n = sq (v / (n : ℚ)) := by
  have he : pollTotal slots = (slots.map Slot.calls).sum := pollTotal_eq slots
  refine ⟨?_, ?_, ?_, rfl⟩
  · show pollAvg slots (pollTotal slots) = _
    rw [pollAvg_eq, he]
  · show pollS slots / ((pollTotal slots - 1 : ℕ) : ℚ) = _
    rw [pollS_eq, Nat.cast_sub htot, Nat.cast_one, he]
  · show pollTotal slots = _
    exact he

/-- Witness for C3 at a concrete slot list. -/
theorem C3_poll_aggregation_witness :
    1 ≤ pollTotal [⟨2, 3, 2⟩] ∧
    ((pollAggregate [⟨2, 3, 2⟩]).1
        = ([⟨2, 3, 2⟩].map fun s : Slot =>
            s.average
              * ((s.calls : ℚ)
                  / ((([⟨2, 3, 2⟩].map Slot.calls).sum : ℕ) : ℚ))).sum ∧
     (pollAggregate [⟨2, 3, 2⟩]).2.1
        = ([⟨2, 3, 2⟩].map Slot.S).sum
            / (((([⟨2, 3, 2⟩].map Slot.calls).sum : ℕ) : ℚ) - 1) ∧
     (pollAggregate [⟨2, 3, 2⟩]).2.2 = ([⟨2, 3, 2⟩].map Slot.calls).sum ∧
     current_error_estimate id 1 1 = id ((1 : ℚ) / ((1 : ℕ) : ℚ))) :=
  ⟨by decide, C3_poll_aggregation [⟨2, 3, 2⟩] id 1 1 (by decide)⟩

/-- Claim C4: after a run the observable aggregate has nonnegative
variance, total calls at least the thread count (each worker contributes
one evaluation during construction), and `progress` lies in `[0,1]`. -/
theorem C4_post_run_invariants (ys : List ℚ) (fss : List (List ℚ))
    (threads : ℕ) (goal est : ℚ)
    (hy : ys.length = threads) (hf : fss.length = threads)
    (ht : 1 ≤ threads) :
    0 ≤ (pollAggregate (List.zipWith workerRun (ys.map primeSlot) fss)).2.1 ∧
    threads
        ≤ (pollAggregate (List.zipWith workerRun (ys.map primeSlot) fss)).2.2 ∧
    0 ≤ progress goal est ∧ progress goal est ≤ 1 := by
  have hmem := mem_zipWith_workerRun ys fss
  refine ⟨?_, ?_, ?_, ?_⟩
  · show 0 ≤ pollS (List.zipWith workerRun (ys.map primeSlot) fss)
        / ((pollTotal (List.zipWith workerRun (ys.map primeSlot) fss) - 1 : ℕ) : ℚ)
    exact div_nonneg (pollS_nonneg _ fun s hs => (hmem s hs).2)
      (Nat.cast_nonneg _)
  · show threads ≤ pollTotal (List.zipWith workerRun (ys.map primeSlot) fss)
    have hlen : (List.zipWith workerRun (ys.map primeSlot) fss).length = threads := by
      simp [List.length_zipWith, hy, hf]
    calc threads
        = (List.zipWith workerRun (ys.map primeSlot) fss).length := hlen.symm
      _ ≤ pollTotal (List.zipWith workerRun (ys.map primeSlot) fss) := by
          rw [pollTotal_eq]
          exact length_le_sum_calls _ (fun s hs => (hmem s hs).1)
  · simp only [progress]
    split_ifs with h
    · norm_num
    · exact mul_self_nonneg _
  · simp only [progress]
    split_ifs with h
    · exact le_refl 1
    · linarith [not_le.mp h]

/-- Witness for C4 with one thread, one priming value and one consumed
sample. -/
theorem C4_post_run_invariants_witness :
    ([(2 : ℚ)].length = 1 ∧ [[(3 : ℚ)]].length = 1 ∧ 1 ≤ 1) ∧
    (0 ≤ (pollAggregate
            (List.zipWith workerRun ([(2 : ℚ)].map primeSlot) [[(3 : ℚ)]])).2.1 ∧
     1 ≤ (pollAggregate
            (List.zipWith workerRun ([(2 : ℚ)].map primeSlot) [[(3 : ℚ)]])).2.2 ∧
     0 ≤ progress 1 1 ∧ progress 1 1 ≤ 1) :=
  ⟨⟨rfl, rfl, le_refl 1⟩,
    C4_post_run_invariants [2] [[3]] 1 1 1 rfl rfl (le_refl 1)⟩

/-- Claim C5: a non-finite integrand value makes the worker raise a
domain error carrying the transformed evaluation point and the returned
value; an exception escaping the sample loop is stored in the shared
exception slot with done set to true; `integrate` re-raises exactly the
stored exception and, with none stored, resolves with the final
aggregate mean. -/
theorem C5_exception_propagation (acc : WorkerAcc) (x : List ℚ) (f : FVal)
    (doneIn : Bool) (s : Slot) (samples : List (List ℚ × FVal))
    (e : MCDomainError) (avg : ℚ)
    (hnf : f.isfinite = false)
    (hloop : workerLoopE (workerInit s) samples = .error e) :
    workerStepE acc x f = .error ⟨x, f⟩ ∧
    (m_thread_monteE doneIn s samples).2.1 = true ∧
    (m_thread_monteE doneIn s samples).2.2 = some e ∧
    m_integrate_finish (some e) avg = .error e ∧
    m_integrate_finish none avg = .ok avg := by
  refine ⟨?_, ?_, ?_, rfl, rfl⟩
  · simp [workerStepE, hnf]
  · simp [m_thread_monteE, hloop]
  · simp [m_thread_monteE, hloop]

/-- Witness for C5: a NaN integrand value on the sample point `[7]`. -/
theorem C5_exception_propagation_witness :
    (FVal.nan.isfinite = false ∧
     workerLoopE (workerInit ⟨0, 0, 1⟩) [([7], FVal.nan)]
        = .error ⟨[7], FVal.nan⟩) ∧
    (workerStepE ⟨0, 0, 0, 0⟩ [7] FVal.nan = .error ⟨[7], FVal.nan⟩ ∧
     (m_thread_monteE false ⟨0, 0, 1⟩ [([7], FVal.nan)]).2.1 = true ∧
     (m_thread_monteE false ⟨0, 0, 1⟩ [([7], FVal.nan)]).2.2
        = some ⟨[7], FVal.nan⟩ ∧
     m_integrate_finish (some ⟨[7], FVal.nan⟩) 5 = .error ⟨[7], FVal.nan⟩ ∧
     m_integrate_finish none 5 = .ok 5) :=
  ⟨⟨rfl, rfl⟩,
    C5_exception_propagation ⟨0, 0, 0, 0⟩ [7] FVal.nan false ⟨0, 0, 1⟩
      [([7], FVal.nan)] ⟨[7], FVal.nan⟩ 5 rfl rfl⟩

/-- Idempotents modulo `2^64` are only 0 and 1: for `2 ≤ s < 2^64` the
wrapped square differs from `s`. -/
theorem sq_mod_ne (s : ℕ) (h2 : 2 ≤ s) (hlt : s < 2 ^ 64) :
    s * s % 2 ^ 64 ≠ s := by
  intro h
  have hq : s * s = 2 ^ 64 * (s * s / 2 ^ 64) + s := by
    conv_lhs => rw [← Nat.div_add_mod (s * s) (2 ^ 64)]
    rw [h]
  have hsub : s * s - s = 2 ^ 64 * (s * s / 2 ^ 64) :=
    Nat.sub_eq_of_eq_add hq
  have hps : s * (s - 1) = s * s - s := by
    rw [← Nat.pred_eq_sub_one, Nat.mul_pred]
  have hdvd : 2 ^ 64 ∣ s * (s - 1) := ⟨s * s / 2 ^ 64, by rw [hps, hsub]⟩
  rcases Nat.even_or_odd s with he | ho
  · have hnd : ¬ (2 ∣ (s - 1)) := by
      rw [Nat.even_iff] at he
      omega
    have hcop : Nat.Coprime (2 ^ 64) (s - 1) :=
      Nat.Coprime.pow_left _ ((Nat.prime_two.coprime_iff_not_dvd).mpr hnd)
    have hds : 2 ^ 64 ∣ s := hcop.dvd_of_dvd_mul_right hdvd
    have := Nat.le_of_dvd (by omega) hds
    omega
  · have hnd : ¬ (2 ∣ s) := by
      rw [Nat.odd_iff] at ho
      omega
    have hcop : Nat.Coprime (2 ^ 64) s :=
      Nat.Coprime.pow_left _ ((Nat.prime_two.coprime_iff_not_dvd).mpr hnd)
    have hds : 2 ^ 64 ∣ (s - 1) := hcop.dvd_of_dvd_mul_left hdvd
    have := Nat.le_of_dvd (by omega) hds
    omega

/-- Claim C6 counterexample: with stored seed 1 — a nonzero seed — the
squaring in `cancel` returns 1 again, so a subsequent `integrate` picks
the very same deterministic seed, contradicting the claim at this
input. -/
theorem C6_counterexample :
    (⟨1, false, 1, 0, 0, 1, 1, [], none⟩ : MCState).m_seed ≠ 0 ∧
    chooseSeed (cancel ⟨1, false, 1, 0, 0, 1, 1, [], none⟩).m_seed 0
      = chooseSeed (⟨1, false, 1, 0, 0, 1, 1, [], none⟩ : MCState).m_seed 0 := by
  constructor
  · decide
  · decide

/-- Claim C6 (amended): `cancel` sets done and replaces the stored seed
by its square modulo `2^64`; for a stored seed `s` with `2 ≤ s < 2^64`
the squared seed differs from `s` (0 and 1 are the only idempotents), so
whenever the squared seed is also nonzero a subsequent `integrate` runs
from a different deterministic seed. -/
theorem C6_cancel_amended (s : MCState) (entropy : ℕ)
    (h2 : 2 ≤ s.m_seed) (hlt : s.m_seed < UINT64_MOD)
    (hnz : s.m_seed * s.m_seed % UINT64_MOD ≠ 0) :
    (cancel s).m_done = true ∧
    (cancel s).m_seed = s.m_seed * s.m_seed % UINT64_MOD ∧
    chooseSeed (cancel s).m_seed entropy ≠ chooseSeed s.m_seed entropy := by
  refine ⟨rfl, rfl, ?_⟩
  have hs0 : ¬ s.m_seed = 0 := by omega
  have hc : (cancel s).m_seed = s.m_seed * s.m_seed % UINT64_MOD := rfl
  rw [hc]
  simp only [chooseSeed]
  rw [if_neg hnz, if_neg hs0]
  exact sq_mod_ne s.m_seed h2 hlt

/-- Witness for the amended C6 at seed 2. -/
theorem C6_cancel_amended_witness :
    (2 ≤ (⟨2, false, 1, 0, 0, 1, 1, [], none⟩ : MCState).m_seed ∧
     (⟨2, false, 1, 0, 0, 1, 1, [], none⟩ : MCState).m_seed < UINT64_MOD ∧
     (⟨2, false, 1, 0, 0, 1, 1, [], none⟩ : MCState).m_seed
         * (⟨2, false, 1, 0, 0, 1, 1, [], none⟩ : MCState).m_seed
         % UINT64_MOD ≠ 0) ∧
    ((cancel ⟨2, false, 1, 0, 0, 1, 1, [], none⟩).m_done = true ∧
     (cancel ⟨2, false, 1, 0, 0, 1, 1, [], none⟩).m_seed
        = (⟨2, false, 1, 0, 0, 1, 1, [], none⟩ : MCState).m_seed
            * (⟨2, false, 1, 0, 0, 1, 1, [], none⟩ : MCState).m_seed
            % UINT64_MOD ∧
     chooseSeed (cancel ⟨2, false, 1, 0, 0, 1, 1, [], none⟩).m_seed 0
        ≠ chooseSeed (⟨2, false, 1, 0, 0, 1, 1, [], none⟩ : MCState).m_seed 0) :=
  ⟨⟨by decide, by decide, by decide⟩,
    C6_cancel_amended ⟨2, false, 1, 0, 0, 1, 1, [], none⟩ 0
      (by decide) (by decide) (by decide)⟩

/-- Claim C7 counterexample: on an upper-infinite axis whose raw lower
bound is exactly zero, singular mode stores `nextafter(0, max)` — under
the IEEE double model the smallest positive subnormal `2^-1074` — and
not machine epsilon as the claim requires. -/
theorem C7_counterexample :
    processAxis ieeeDoubleOps true (XReal.fin 0, XReal.posInf)
      = .ok ⟨.UPPER_BOUND_INFINITE, 1 / 2 ^ 1074, none⟩ ∧
    (1 : ℚ) / 2 ^ 1074 ≠ ieeeDoubleOps.eps := by
  constructor
  · simp [processAxis, ieeeDoubleOps, XReal.leb, XReal.toQ]
  · intro hcontra
    have : (1 : ℚ) / 2 ^ 1074 = 1 / 2 ^ 52 := hcontra
    norm_num at this

/-- Claim C7 (amended): with singular mode on, a Finite axis stores
`lb = nextafter(lower, max)` except that a raw lower bound of exactly
zero stores machine epsilon instead, and the width is
`nextafter(upper, lowest) − lb`; an UpperInfinite axis always stores
`lb = nextafter(lower, max)`, with no zero special case.  With singular
off, `lb` is the raw lower bound and the width the raw width. -/
theorem C7_singular_nudging (fo : FloatOps) (singular : Bool) (a b : ℚ)
    (hab : a < b) :
    processAxis fo singular (XReal.fin a, XReal.fin b)
      = .ok ⟨.FINITE,
          if singular then (if a = 0 then fo.eps else fo.nextUp a) else a,
          some ((if singular then fo.nextDown b else b)
              - (if singular
                  then (if a = 0 then fo.eps else fo.nextUp a) else a))⟩ ∧
    processAxis fo singular (XReal.fin a, XReal.posInf)
      = .ok ⟨.UPPER_BOUND_INFINITE,
          if singular then fo.nextUp a else a, none⟩ := by
  constructor
  · cases singular <;> by_cases h0 : a = 0 <;>
      simp [processAxis, XReal.leb, XReal.toQ, not_le.mpr hab, h0] <;>
      linarith
  · cases singular <;> simp [processAxis, XReal.leb, XReal.toQ]

/-- Witness for the amended C7 on the axis `(1, 2)` and `(1, +∞)`. -/
theorem C7_singular_nudging_witness :
    (1 : ℚ) < 2 ∧
    (processAxis toyOps true (XReal.fin 1, XReal.fin 2)
        = .ok ⟨.FINITE,
            if true then (if (1 : ℚ) = 0 then toyOps.eps else toyOps.nextUp 1)
              else 1,
            some ((if true then toyOps.nextDown 2 else 2)
                - (if true
                    then (if (1 : ℚ) = 0 then toyOps.eps else toyOps.nextUp 1)
                    else 1))⟩ ∧
     processAxis toyOps true (XReal.fin 1, XReal.posInf)
        = .ok ⟨.UPPER_BOUND_INFINITE,
            if true then toyOps.nextUp 1 else 1, none⟩) :=
  ⟨by norm_num, C7_singular_nudging toyOps true 1 2 (by norm_num)⟩

/-- Claim C8: a second `integrate()` resumes from the existing
accumulator state — it clears only the done flag, leaving the seed, the
goal, the aggregates and every per-thread slot untouched — each worker
reloads its `k`, `M1`, `S` from the slot published by the previous run,
and the poll loop compares against the currently stored (possibly
updated) error goal. -/
theorem C8_restart_resumes (s : MCState) (slot : Slot) (sq : ℚ → ℚ)
    (g : ℚ) :
    (integrateStart s).m_done = false ∧
    (integrateStart s).slots = s.slots ∧
    (integrateStart s).m_seed = s.m_seed ∧
    (integrateStart s).m_error_goal = s.m_error_goal ∧
    (integrateStart s).m_avg = s.m_avg ∧
    (integrateStart s).m_variance = s.m_variance ∧
    (integrateStart s).m_total_calls = s.m_total_calls ∧
    (integrateStart s).m_num_threads = s.m_num_threads ∧
    (integrateStart s).m_exception = s.m_exception ∧
    (workerInit slot).k = slot.calls ∧
    (workerInit slot).M1 = slot.average ∧
    (workerInit slot).S = slot.S ∧
    pollContinues sq (update_target_error s g)
      = decide (g < current_error_estimate sq s.m_variance s.m_total_calls) :=
  ⟨rfl, rfl, rfl, rfl, rfl, rfl, rfl, rfl, rfl, rfl, rfl, rfl, rfl⟩

/-- Claim C9: for `u ∈ [0,1]` — the range produced by scaling raw
generator output by `1/(max − min)` — and positive machine constants,
every divisor of the coordinate transform (`1+ε−u`, `u+√min`, `u+ε`, as
enumerated by `transformDenominators`) is strictly positive, so the
mapping never divides by zero, and the scaled sample itself lies in
`[0,1]`. -/
theorem C9_transform_total (eps sqrtMin u : ℚ) (gmin gmax g : ℕ)
    (heps : 0 < eps) (hmin : 0 < sqrtMin) (hu0 : 0 ≤ u) (hu1 : u ≤ 1)
    (hg1 : gmin ≤ g) (hg2 : g ≤ gmax) (hgl : gmin < gmax) :
    transformDenominators eps sqrtMin .UPPER_BOUND_INFINITE u
        = [1 + eps - u] ∧
    transformDenominators eps sqrtMin .LOWER_BOUND_INFINITE u
        = [u + sqrtMin] ∧
    transformDenominators eps sqrtMin .DOUBLE_INFINITE u
        = [1 + eps - u, u + eps] ∧
    0 < 1 + eps - u ∧ 0 < u + sqrtMin ∧ 0 < u + eps ∧
    0 ≤ scaleSample gmin gmax g ∧ scaleSample gmin gmax g ≤ 1 := by
  have c1 : (gmin : ℚ) ≤ (g : ℚ) := by exact_mod_cast hg1
  have c2 : (g : ℚ) ≤ (gmax : ℚ) := by exact_mod_cast hg2
  have c3 : (gmin : ℚ) < (gmax : ℚ) := by exact_mod_cast hgl
  refine ⟨rfl, rfl, rfl, by linarith, by linarith, by linarith, ?_, ?_⟩
  · simp only [scaleSample]
    exact mul_nonneg (by linarith) (le_of_lt (one_div_pos.mpr (by linarith)))
  · simp only [scaleSample]
    rw [mul_one_div, div_le_one (by linarith)]
    linarith

/-- Witness for C9 at `ε = √min = 1`, `u = 1`, generator range `[0,1]`
with draw `1`. -/
theorem C9_transform_total_witness :
    ((0 : ℚ) < 1 ∧ (0 : ℚ) < 1 ∧ (0 : ℚ) ≤ 1 ∧ (1 : ℚ) ≤ 1 ∧
     (0 : ℕ) ≤ 1 ∧ (1 : ℕ) ≤ 1 ∧ (0 : ℕ) < 1) ∧
    (transformDenominators 1 1 .UPPER_BOUND_INFINITE 1 = [1 + 1 - 1] ∧
     transformDenominators 1 1 .LOWER_BOUND_INFINITE 1 = [1 + 1] ∧
     transformDenominators 1 1 .DOUBLE_INFINITE 1 = [1 + 1 - 1, 1 + 1] ∧
     (0 : ℚ) < 1 + 1 - 1 ∧ (0 : ℚ) < 1 + 1 ∧ (0 : ℚ) < 1 + 1 ∧
     0 ≤ scaleSample 0 1 1 ∧ scaleSample 0 1 1 ≤ 1) :=
  ⟨⟨by decide, by decide, by decide, by decide, by decide, by decide,
    by decide⟩,
    C9_transform_total 1 1 1 0 1 1 (by decide) (by decide) (by decide)
      (by decide) (by decide) (by decide) (by decide)⟩

/-- Claim C10: `update_target_error` stores its argument unconditionally
and totally — the stored goal becomes exactly the argument, with no
validation and no other field changed. -/
theorem C10_update_target_error_unconditional (s : MCState) (e : ℚ) :
    update_target_error s e = { s with m_error_goal := e } ∧
    (update_target_error s e).m_error_goal = e ∧
    (update_target_error s e).m_seed = s.m_seed ∧
    (update_target_error s e).m_done = s.m_done ∧
    (update_target_error s e).m_avg = s.m_avg ∧
    (update_target_error s e).m_variance = s.m_variance ∧
    (update_target_error s e).m_total_calls = s.m_total_calls ∧
    (update_target_error s e).m_num_threads = s.m_num_threads ∧
    (update_target_error s e).slots = s.slots ∧
    (update_target_error s e).m_exception = s.m_exception :=
  ⟨rfl, rfl, rfl, rfl, rfl, rfl, rfl, rfl, rfl, rfl⟩

end NaiveMonteCarlo
